import Mathlib

/-!
Verification development for the timing and event-dispatch core of a NIC SDK
runtime: the hashed timer wheel (twheel), its slab pool, the periodic driver
that feeds it, and the event-thread up/down and messaging layer.

The definitions below are a shallow embedding of the C++ sources:

* `lib/twheel/twheel.hpp` and its implementation file (timer wheel);
* `lib/slab/slab.cc` (block management of the slab pool);
* `lib/periodic/periodic.cc` (batched driving of the global wheel);
* `lib/event_thread/event_thread.cc` (updown manager and message send).

Machine integers are modelled as `Nat` with explicit reductions modulo
`2 ^ 16`, `2 ^ 32` and `2 ^ 64` exactly where the C code truncates.
Pointers to heap objects become numeric ids held in association lists; the
intrusive per-slice doubly linked lists become `List Nat` of entry ids
(list head = `slice_head_`).  Spinlock acquisition and release have no
effect in a sequential model and are elided; the retry loops of `del_timer`
and `upd_timer` terminate at once in that model.
-/

def U16 : Nat := 65536
def U32 : Nat := 4294967296
def U64 : Nat := 18446744073709551616

/-- Timer wheel entry, mirroring `struct twentry_s`.  The C fields
`timer_id_` and `timeout_` are `uint32_t`, `nspins_` is `uint16_t`,
`slice_` is `uint32_t`; `ctxt_` and `cb_` are pointers (modelled as
`Option Nat`, `none` = NULL).  The intrusive `next_`/`prev_` pointers are
represented by the position of the id inside the slice lists. -/
structure TwEntry where
  timer_id : Nat
  timeout : Nat
  periodic : Bool
  valid : Bool
  ctxt : Option Nat
  cb : Option Nat
  nspins : Nat
  slice : Nat
deriving DecidableEq

/-- Timer wheel state, mirroring class `twheel`.  `slices` is the array
`twheel_` of `nslices` lists of linked entry ids; `entries` is the heap of
slab-allocated entries keyed by id; `next_id` produces fresh ids for
`add_timer` allocations. -/
structure TwState where
  slice_intvl : Nat
  nslices : Nat
  curr_slice : Nat
  num_entries : Nat
  slices : List (List Nat)
  entries : List (Nat × TwEntry)
  next_id : Nat
deriving DecidableEq

/-- Replace the value stored under key `id` (used for field updates through
an entry pointer); keys and the order of the list are unchanged. -/
def updEntries (l : List (Nat × TwEntry)) (id : Nat) (e : TwEntry) :
    List (Nat × TwEntry) :=
  l.map (fun p => if p.1 = id then (id, e) else p)

/-- `twheel::next_slice_`.  `rem` and `num_slices` are `uint32_t` in the C
code while `timeout` and `slice_intvl_` are `uint64_t` and `nslices_` is
`uint32_t`; the reductions below mirror those conversions. -/
def next_slice_ (s : TwState) (timeout entry_slice : Nat) (update : Bool) :
    Nat :=
  let rem := ((timeout % U64) % ((s.nslices * s.slice_intvl) % U64)) % U32
  let num0 := (rem / s.slice_intvl) % U32
  let num_slices := if num0 = 0 then 1 else num0
  let slice := ((s.curr_slice + num_slices) % U32) % s.nslices
  if update && (slice == entry_slice) then (slice + 1) % s.nslices else slice

/-- `twheel::init_twentry_`: populate an entry.  `timeout_` is stored in a
`uint32_t` field and `nspins_` in a `uint16_t` field, hence the two
truncations; `valid_` is cleared (linking sets it later). -/
def init_twentry_ (s : TwState) (timer_id timeout : Nat) (periodic : Bool)
    (ctxt cb : Option Nat) (slice : Nat) : TwEntry :=
  { timer_id := timer_id
    timeout := timeout % U32
    periodic := periodic
    valid := false
    ctxt := ctxt
    cb := cb
    nspins := ((timeout % U64) / ((s.nslices * s.slice_intvl) % U64)) % U16
    slice := slice }

/-- `twheel::insert_timer_`: link the entry at the head of the slice list
recorded in its `slice_` field, mark it valid and bump `num_entries_`. -/
def insert_timer_ (s : TwState) (id : Nat) : TwState :=
  match s.entries.lookup id with
  | none => s
  | some e =>
    { s with
      slices := s.slices.set e.slice (id :: s.slices.getD e.slice [])
      entries := updEntries s.entries id { e with valid := true }
      num_entries := s.num_entries + 1 }

/-- `twheel::unlink_timer_`: remove the entry from the list it is linked
into (the list of its `slice_` field) and decrement `num_entries_`. -/
def unlink_timer_ (s : TwState) (id : Nat) : TwState :=
  match s.entries.lookup id with
  | none => s
  | some e =>
    { s with
      slices := s.slices.set e.slice ((s.slices.getD e.slice []).erase id)
      num_entries := s.num_entries - 1 }

/-- `twheel::remove_timer_`: no-op on an invalid entry, otherwise unlink
and clear `valid_`. -/
def remove_timer_ (s : TwState) (id : Nat) : TwState :=
  match s.entries.lookup id with
  | none => s
  | some e =>
    if e.valid = false then s
    else
      let s1 := unlink_timer_ s id
      { s1 with entries := updEntries s1.entries id { e with valid := false } }

def TWHEEL_DELAY_DELETE : Nat := 2000

/-- `twheel::delay_delete_`: re-initialise the (already unlinked) entry for
a slice `TWHEEL_DELAY_DELETE` ms ahead with NULL context and callback,
relink it there, then clear `valid_` so that `tick` reclaims it. -/
def delay_delete_ (s : TwState) (id : Nat) : TwState :=
  match s.entries.lookup id with
  | none => s
  | some e =>
    let sl := next_slice_ s TWHEEL_DELAY_DELETE e.slice true
    let e1 := init_twentry_ s e.timer_id TWHEEL_DELAY_DELETE false none none sl
    let s1 := { s with entries := updEntries s.entries id e1 }
    let s2 := insert_timer_ s1 id
    { s2 with entries := updEntries s2.entries id { e1 with valid := false } }

/-- `twheel::add_timer`.  The slab allocation is modelled as always
succeeding and yielding the fresh id `next_id` (on allocation failure the C
code returns NULL with the wheel untouched).  Returns the new state and the
handle. -/
def add_timer (s : TwState) (timer_id timeout : Nat) (ctxt cb : Option Nat)
    (periodic : Bool) (initial_delay : Nat) : TwState × Option Nat :=
  let slice := next_slice_ s ((initial_delay + timeout) % U64) 0 false
  let id := s.next_id
  let e := init_twentry_ s timer_id timeout periodic ctxt cb slice
  let s1 := { s with entries := s.entries ++ [(id, e)], next_id := id + 1 }
  (insert_timer_ s1 id, some id)

/-- `twheel::del_timer`: returns the stored context; on a valid entry it
unlinks the entry and pushes it to the delay-delete slice, on an invalid
entry (already pending delay delete) it changes nothing. -/
def del_timer (s : TwState) (h : Option Nat) : TwState × Option Nat :=
  match h with
  | none => (s, none)
  | some id =>
    match s.entries.lookup id with
    | none => (s, none)
    | some e =>
      if e.valid = false then (s, e.ctxt)
      else (delay_delete_ (remove_timer_ s id) id, e.ctxt)

/-- `twheel::upd_timer`: no-op on an invalid entry; otherwise remove, pick
a new slice with `update = true` (so distinct from the held slice lock) and
relink with the new parameters, keeping the callback. -/
def upd_timer (s : TwState) (h : Option Nat) (timeout : Nat)
    (periodic : Bool) (ctxt : Option Nat) : TwState × Option Nat :=
  match h with
  | none => (s, none)
  | some id =>
    match s.entries.lookup id with
    | none => (s, some id)
    | some e =>
      if e.valid = false then (s, some id)
      else
        let s1 := remove_timer_ s id
        let sl := next_slice_ s1 (timeout % U64) e.slice true
        let e1 := init_twentry_ s1 e.timer_id timeout periodic ctxt e.cb sl
        let s2 := { s1 with entries := updEntries s1.entries id e1 }
        (insert_timer_ s2 id, some id)

/-- `twheel::upd_timer_` (internal, used by `tick` for periodic timers):
like `upd_timer` but keeps context and callback. -/
def upd_timer_int (s : TwState) (id : Nat) (timeout : Nat)
    (periodic : Bool) : TwState :=
  match s.entries.lookup id with
  | none => s
  | some e =>
    let s1 := remove_timer_ s id
    let sl := next_slice_ s1 (timeout % U64) e.slice true
    let e1 := init_twentry_ s1 e.timer_id timeout periodic e.ctxt e.cb sl
    let s2 := { s1 with entries := updEntries s1.entries id e1 }
    insert_timer_ s2 id

/-- Processing of one linked entry inside `twheel::tick`.  An invalid entry
is unlinked and returned to the slab (deallocated from `entries`); a
spinning entry just decrements `nspins_`; an expired entry fires its
callback (modelled as not mutating the wheel, as the source comments
demand) and is then either rescheduled through `upd_timer_` when periodic
or moved to delay delete when one shot.  Because the callback does not
mutate the wheel, the post-callback `valid_` re-check reads `true` here. -/
def tick_entry (s : TwState) (id : Nat) : TwState :=
  match s.entries.lookup id with
  | none => s
  | some e =>
    if e.valid = false then
      let s1 := unlink_timer_ s id
      { s1 with entries := s1.entries.filter (fun p => p.1 != id) }
    else if e.nspins ≠ 0 then
      { s with entries := updEntries s.entries id { e with nspins := e.nspins - 1 } }
    else if e.periodic then
      upd_timer_int s id e.timeout true
    else
      delay_delete_ (remove_timer_ s id) id

/-- One slice pass of `twheel::tick`: the list is walked from the tail
(`last_timer_in_slice`) towards the head following the cached `prev_`
pointers, so the entries of the snapshot are processed in reverse order;
reinsertion always targets a different slice (`next_slice_` with
`update = true`), matching the walk of the C code. -/
def tick_slice (s : TwState) : TwState :=
  (s.slices.getD s.curr_slice []).reverse.foldl tick_entry s

/-- Slice processing plus the `curr_slice_` advance at the bottom of the
per-slice loop of `twheel::tick`. -/
def tick_step (s : TwState) : TwState :=
  let s1 := tick_slice s
  { s1 with curr_slice := (s1.curr_slice + 1) % s1.nslices }

def tick_loop : Nat → TwState → TwState
  | 0, s => s
  | n + 1, s => tick_loop n (tick_step s)

/-- `twheel::tick`: returns immediately when less than one slice interval
has elapsed, otherwise walks `msecs_elapsed / slice_intvl_` slices.  The
argument is `uint32_t` in C. -/
def tick (s : TwState) (msecs_elapsed : Nat) : TwState :=
  if msecs_elapsed % U32 < s.slice_intvl then s
  else tick_loop ((msecs_elapsed % U32) / s.slice_intvl) s

/-- `twheel::get_timeout_remaining` arithmetic on the raw fields:
`nspins_ * (nslices_ * slice_intvl_)` and the final sum are `uint64_t`
computations, while `(slice_ - curr_slice_ + nslices_) % nslices_` is
carried out entirely in `uint32_t` (wrapping subtraction). -/
def remaining_of (nslices slice_intvl curr_slice : Nat) (e : TwEntry) : Nat :=
  let inner :=
    ((((e.slice + (U32 - curr_slice % U32)) % U32) + nslices) % U32) % nslices
  ((e.nspins * ((nslices * slice_intvl) % U64)) % U64
    + (inner * slice_intvl) % U64) % U64

/-- `twheel::get_timeout_remaining`: 0 for a NULL handle, otherwise the
remaining-time formula over the entry fields. -/
def get_timeout_remaining (s : TwState) (h : Option Nat) : Nat :=
  match h with
  | none => 0
  | some id =>
    match s.entries.lookup id with
    | none => 0
    | some e => remaining_of s.nslices s.slice_intvl s.curr_slice e

/-- `twheel::factory` composed with `twheel::init`.  `allocs_ok` stands
for the success of the three internal allocations (the wheel object, the
entry slab and the slice array); when any of them fails the C code frees
what it built and returns NULL.  Parameter screening and the initial field
values follow the source. -/
def twheel_factory (slice_intvl wheel_duration : Nat) (allocs_ok : Bool) :
    Option TwState :=
  if slice_intvl = 0 ∨ wheel_duration = 0 ∨ wheel_duration ≤ slice_intvl then
    none
  else if allocs_ok = false then none
  else
    some
      { slice_intvl := slice_intvl
        nslices := wheel_duration / slice_intvl
        curr_slice := 0
        num_entries := 0
        slices := List.replicate (wheel_duration / slice_intvl) []
        entries := []
        next_id := 0 }

/-! ## Wheel invariant (claim C3) -/

/-- Number of occurrences of an entry id across all slice lists. -/
def linkCount (ls : List (List Nat)) (id : Nat) : Nat :=
  (ls.map (fun l => l.count id)).sum

/-- Total number of linked entries (delay-delete corpses included). -/
def totalLen (ls : List (List Nat)) : Nat :=
  (ls.map List.length).sum

/-- Structural invariant of the wheel: the slice array has `nslices_`
slots, every allocated and not yet reclaimed entry is linked into exactly
one slice list (namely the one of its `slice_` field), every linked id is
an allocated entry, and `num_entries_` equals the number of linked
entries. -/
def TwInv (s : TwState) : Prop :=
  s.slices.length = s.nslices ∧
  0 < s.nslices ∧
  (s.entries.map Prod.fst).Nodup ∧
  (∀ p ∈ s.entries, p.2.slice < s.nslices ∧
      (s.slices.getD p.2.slice []).count p.1 = 1 ∧
      linkCount s.slices p.1 = 1 ∧ p.1 < s.next_id) ∧
  (∀ l ∈ s.slices, ∀ id ∈ l, (s.entries.lookup id).isSome = true) ∧
  s.num_entries = totalLen s.slices

instance decTwInv (s : TwState) : Decidable (TwInv s) := by
  unfold TwInv
  infer_instance

/-- Transient shape between unlink and relink: entry `id` is allocated but
linked nowhere; every other allocated entry satisfies the invariant
clauses. -/
def TwInvUnlinked (s : TwState) (id : Nat) : Prop :=
  s.slices.length = s.nslices ∧
  0 < s.nslices ∧
  (s.entries.map Prod.fst).Nodup ∧
  (s.entries.lookup id).isSome = true ∧
  linkCount s.slices id = 0 ∧
  id < s.next_id ∧
  (∀ p ∈ s.entries, p.1 ≠ id → p.2.slice < s.nslices ∧
      (s.slices.getD p.2.slice []).count p.1 = 1 ∧
      linkCount s.slices p.1 = 1 ∧ p.1 < s.next_id) ∧
  (∀ l ∈ s.slices, ∀ i ∈ l, (s.entries.lookup i).isSome = true) ∧
  s.num_entries = totalLen s.slices

/-! ## Slab pool block management (`slab.cc`) -/

/-- One slab block: only the per-block in-use counter matters for block
release; the embedded free list and element storage are summarised by that
counter. -/
structure SlabBlock where
  num_in_use : Nat
deriving DecidableEq

/-- Slab state: `blocks` is the doubly linked block list with the head at
position 0 (`block_head_`); a block at position `i` has a non-NULL
`next_` exactly when `i + 1` is still inside the list. -/
structure SlabState where
  grow_on_demand : Bool
  blocks : List SlabBlock
  num_in_use : Nat
  num_frees : Nat
deriving DecidableEq

/-- `slab::free_block_`: unlink the block and return it to the underlying
allocator. -/
def free_block_ (s : SlabState) (i : Nat) : SlabState :=
  { s with blocks := s.blocks.eraseIdx i }

/-- `slab::free_` for an element that belongs to the block at position `i`
(the C code locates that block by an address-range scan): put the element
back on the block free list, drop the three in-use counters, and release
the block when its count reached zero, the slab grows on demand and the
block has a successor (`block->next_` non-NULL). -/
def slab_free_ (s : SlabState) (i : Nat) : SlabState :=
  match s.blocks.get? i with
  | none => s
  | some b =>
    let b1 : SlabBlock := { num_in_use := b.num_in_use - 1 }
    let s1 := { s with
      blocks := s.blocks.set i b1
      num_frees := s.num_frees + 1
      num_in_use := s.num_in_use - 1 }
    if b1.num_in_use == 0 && s.grow_on_demand && (i + 1 < s.blocks.length : Bool)
    then free_block_ s1 i
    else s1

/-- `slab::free`: the public entry point is `free_` under the slab lock. -/
def slab_free (s : SlabState) (i : Nat) : SlabState :=
  slab_free_ s i

/-! ## Periodic driver (`periodic.cc`) -/

def BATCH_SLICE_SIZE : Nat := 10

def TWHEEL_DEFAULT_SLICE_DURATION : Nat := 250

/-- Observable actions of the periodic thread loop body. -/
inductive PeriodicEvent where
  | tick (msecs : Nat)
  | heartbeat
deriving DecidableEq

/-- The inner `while (missed)` loop of `periodic_thread_run`: as long as
periods remain, call `g_twheel->tick` charged with
`min(missed, BATCH_SLICE_SIZE)` slice durations, punch a heartbeat, and
subtract the batch from `missed`. -/
def periodic_drive (missed : Nat) : List PeriodicEvent :=
  if h : missed = 0 then []
  else
    let b := min missed BATCH_SLICE_SIZE
    PeriodicEvent.tick (b * TWHEEL_DEFAULT_SLICE_DURATION) ::
      PeriodicEvent.heartbeat :: periodic_drive (missed - b)
termination_by missed
decreasing_by
  have : 0 < min missed BATCH_SLICE_SIZE := by
    have : 0 < missed := Nat.pos_of_ne_zero h
    simp [BATCH_SLICE_SIZE]
    omega
  omega

/-- The `tick` arguments (in ms) of one driving loop, in order. -/
def tickCharges (evs : List PeriodicEvent) : List Nat :=
  evs.filterMap fun ev =>
    match ev with
    | PeriodicEvent.tick m => some m
    | PeriodicEvent.heartbeat => none

/-- Number of `punch_heartbeat` calls of one driving loop. -/
def heartbeatCount (evs : List PeriodicEvent) : Nat :=
  (evs.filter fun ev =>
    match ev with
    | PeriodicEvent.heartbeat => true
    | PeriodicEvent.tick _ => false).length

/-! ## Event thread messaging and updown registry (`event_thread.cc`) -/

def MAX_THREAD_ID : Nat := 255

/-- Inbox envelope (`lfq_msg`): a user message with an opaque payload, or a
thread-up notification carrying the thread id (the only updown status ever
enqueued is `THREAD_UP`). -/
inductive LfqMsg where
  | user (payload : Nat)
  | updown (thread_id : Nat)
deriving DecidableEq

instance : BEq LfqMsg := ⟨fun a b => decide (a = b)⟩

instance : LawfulBEq LfqMsg where
  eq_of_beq h := by simpa [BEq.beq] using h
  rfl := by simp [BEq.beq]

/-- Process-wide event-thread state: updown status map (`status_`, a
`std::map` whose `operator[]` defaults to `THREAD_DOWN`, modelled as
`false`), the subscription map (`subscriptions_`), the registered threads
with their inboxes (`g_event_thread_table`; a thread id is registered
exactly when it has an inbox entry), and a log of async wakeups
(`ev_async_send` calls). -/
structure EvState where
  status : List (Nat × Bool)
  subscriptions : List (Nat × List Nat)
  inboxes : List (Nat × List LfqMsg)
  wakeups : List Nat
deriving DecidableEq

/-- Overwrite-or-append update of an association list. -/
def setAssoc {α : Type} (l : List (Nat × α)) (k : Nat) (v : α) :
    List (Nat × α) :=
  if (l.lookup k).isSome then
    l.map fun p => if p.1 = k then (k, v) else p
  else l ++ [(k, v)]

def statusOf (s : EvState) (tid : Nat) : Bool :=
  (s.status.lookup tid).getD false

def subsOf (s : EvState) (tid : Nat) : List Nat :=
  (s.subscriptions.lookup tid).getD []

def inboxOf (s : EvState) (tid : Nat) : List LfqMsg :=
  (s.inboxes.lookup tid).getD []

/-- `std::set::insert`: add the subscriber if not yet present (the
iteration order of the C set is by key; only membership and cardinality
matter here). -/
def insertUniq (l : List Nat) (x : Nat) : List Nat :=
  if x ∈ l then l else l ++ [x]

/-- `event_thread::message_send` (member): enqueue the envelope on the
lock-free queue of the target thread and wake its async watcher. -/
def ev_message_send (s : EvState) (tid : Nat) (m : LfqMsg) : EvState :=
  { s with
    inboxes := setAssoc s.inboxes tid (inboxOf s tid ++ [m])
    wakeups := s.wakeups ++ [tid] }

/-- `event_thread::handle_thread_up`: build an UPDOWN_MSG envelope for
`thread_id` with status UP and hand it to the member `message_send`. -/
def handle_thread_up (s : EvState) (subscriber thread_id : Nat) : EvState :=
  ev_message_send s subscriber (LfqMsg.updown thread_id)

/-- Record `(subscriber, target)` in `subscriptions_[target]`. -/
def recordSub (s : EvState) (subscriber target : Nat) : EvState :=
  { s with subscriptions :=
      setAssoc s.subscriptions target (insertUniq (subsOf s target) subscriber) }

/-- `updown_mgr::subscribe`: the three `assert`s abort the process
(modelled as `none`); when the target is already UP the UP notification is
delivered into the subscriber inbox at once (aborting when the subscriber
is not a registered event thread), and the subscription is recorded
unconditionally. -/
def updown_subscribe (s : EvState) (subscriber target : Nat) :
    Option EvState :=
  if subscriber = target then none
  else if MAX_THREAD_ID < subscriber then none
  else if MAX_THREAD_ID < target then none
  else if statusOf s target then
    if (s.inboxes.lookup subscriber).isSome then
      some (recordSub (handle_thread_up s subscriber target) subscriber target)
    else none
  else some (recordSub s subscriber target)

/-- `updown_mgr::up`: assert the id range and that the thread was not
already UP, mark it UP, then notify every current subscriber. -/
def updown_up (s : EvState) (thread_id : Nat) : Option EvState :=
  if MAX_THREAD_ID < thread_id then none
  else if statusOf s thread_id then none
  else
    let s1 := { s with status := setAssoc s.status thread_id true }
    some ((subsOf s1 thread_id).foldl
      (fun acc sub => handle_thread_up acc sub thread_id) s1)

/-- The free function `sdk::event_thread::message_send(thread_id, msg)`:
two `assert`s guard the thread id range and registration (`none` models
the abort); only past both does it build a USER_MSG envelope and call the
member `message_send` (enqueue plus async wakeup).  The envelope
allocation is modelled as succeeding. -/
def message_send_global (s : EvState) (thread_id payload : Nat) :
    Option EvState :=
  if MAX_THREAD_ID < thread_id then none
  else if (s.inboxes.lookup thread_id).isSome = false then none
  else some (ev_message_send s thread_id (LfqMsg.user payload))

/-! ## Concrete states used as evaluation inputs below -/

/-- A live one-shot entry sitting in slice 1 with context 7. -/
def twentryW : TwEntry :=
  { timer_id := 1, timeout := 100, periodic := false, valid := true,
    ctxt := some 7, cb := some 0, nspins := 0, slice := 1 }

/-- A 4-slice wheel (g = 100 ms, D = 400 ms) holding `twentryW` as entry
id 0. -/
def twW : TwState :=
  { slice_intvl := 100, nslices := 4, curr_slice := 0, num_entries := 1,
    slices := [[], [0], [], []], entries := [(0, twentryW)], next_id := 1 }

/-- An empty 4-slice wheel, as produced by the factory for g = 100,
D = 400. -/
def twEmpty : TwState :=
  { slice_intvl := 100, nslices := 4, curr_slice := 0, num_entries := 0,
    slices := [[], [], [], []], entries := [], next_id := 0 }

/-- An entry parked in the last slice of a wheel with more slices than
2^31. -/
def twentryHuge : TwEntry :=
  { timer_id := 1, timeout := 0, periodic := false, valid := true,
    ctxt := none, cb := none, nspins := 0, slice := 2147483649 }

/-- A wheel with 2^31 + 2 slices of 1 ms (constructible through the
factory with g = 1 and D = 2147483650); `get_timeout_remaining` does not
walk the slice array, so the array itself is irrelevant here. -/
def twHuge : TwState :=
  { slice_intvl := 1, nslices := 2147483650, curr_slice := 0,
    num_entries := 1, slices := [], entries := [(0, twentryHuge)],
    next_id := 1 }

/-- A grow-on-demand slab with two blocks of one element each in use
(head block = most recently allocated block). -/
def slabW : SlabState :=
  { grow_on_demand := true, blocks := [{ num_in_use := 1 },
      { num_in_use := 1 }], num_in_use := 2, num_frees := 0 }

/-- An updown registry where thread 3 is UP, threads 2 and 3 are
registered event threads with empty inboxes, and no subscriptions
exist. -/
def evW : EvState :=
  { status := [(3, true)], subscriptions := [],
    inboxes := [(2, []), (3, [])], wakeups := [] }

/-- The final adjustment step of `next_slice_` can never produce
`entry_slice` when the wheel has at least two slices. -/
theorem next_slice_adjust_ne (N c es : Nat) (hN : 2 ≤ N) (hc : c < N)
    (hes : es < N) :
    (if (true && (c == es)) = true then (c + 1) % N else c) ≠ es := by
  by_cases h : c = es
  · subst h
    simp only [beq_self_eq_true, Bool.and_self, if_pos]
    intro habs
    rcases Nat.lt_or_ge (c + 1) N with hlt | hge
    · rw [Nat.mod_eq_of_lt hlt] at habs
      omega
    · have h1 : c + 1 = N := by omega
      rw [h1, Nat.mod_self] at habs
      omega
  · have hne : ¬((c == es) = true) := by simpa using h
    simp only [Bool.true_and]
    rw [if_neg hne]
    exact h

theorem next_slice_lt (s : TwState) (t es : Nat) (u : Bool)
    (hN : 0 < s.nslices) : next_slice_ s t es u < s.nslices := by
  unfold next_slice_
  dsimp only
  split <;> split <;> exact Nat.mod_lt _ hN

/-! ### Claim C2 -/

/-- Claim C2: with at least two slices, `next_slice_` with `update = true`
never returns `entry_slice` itself, for every timeout and every
`entry_slice` in range; hence `upd_timer` and the periodic reschedule
inside `tick` never acquire the slice lock they already hold. -/
theorem next_slice_update_ne_entry (s : TwState) (timeout entry_slice : Nat)
    (hN : 2 ≤ s.nslices) (hes : entry_slice < s.nslices) :
    next_slice_ s timeout entry_slice true ≠ entry_slice := by
  have hN0 : 0 < s.nslices := by omega
  unfold next_slice_
  exact next_slice_adjust_ne s.nslices _ entry_slice hN
    (Nat.mod_lt _ hN0) hes

/-- Witness for claim C2 at a concrete wheel. -/
theorem next_slice_update_ne_entry_witness :
    next_slice_
      { slice_intvl := 100, nslices := 10, curr_slice := 3, num_entries := 0,
        slices := [], entries := [], next_id := 0 } 250 5 true ≠ 5 :=
  next_slice_update_ne_entry _ 250 5 (by decide) (by decide)

/-! ### Claim C8 -/

/-- Claim C8: `twheel::factory` returns NULL exactly when the slice
interval is zero, the duration is zero, the duration does not exceed the
slice interval, or an internal allocation fails; a successfully built
wheel starts with `nslices_ = wheel_duration / slice_intvl`,
`curr_slice_ = 0` and `num_entries_ = 0`. -/
theorem twheel_factory_spec (g D : Nat) (ok : Bool) :
    (twheel_factory g D ok = none ↔ (g = 0 ∨ D = 0 ∨ D ≤ g ∨ ok = false)) ∧
    (∀ s, twheel_factory g D ok = some s →
      s.nslices = D / g ∧ s.curr_slice = 0 ∧ s.num_entries = 0 ∧
      s.slice_intvl = g) := by
  constructor
  · by_cases h1 : g = 0 ∨ D = 0 ∨ D ≤ g
    · simp only [twheel_factory, if_pos h1, true_iff]
      tauto
    · by_cases h2 : ok = false
      · simp only [twheel_factory, if_neg h1, h2, if_pos rfl, true_iff]
        tauto
      · simp only [twheel_factory, if_neg h1, if_neg h2, false_iff]
        tauto
  · intro s hs
    unfold twheel_factory at hs
    split at hs
    · exact absurd hs (by simp)
    · split at hs
      · exact absurd hs (by simp)
      · simp only [Option.some.injEq] at hs
        subst hs
        exact ⟨rfl, rfl, rfl, rfl⟩

/-- Witness for claim C8: the default parameters build a 480-slice wheel,
and a duration not exceeding the slice interval is rejected. -/
theorem twheel_factory_spec_witness :
    (twheel_factory 250 120000 true = none ↔
      ((250 : Nat) = 0 ∨ (120000 : Nat) = 0 ∨ (120000 : Nat) ≤ 250 ∨
        true = false)) ∧
    (∀ s, twheel_factory 250 120000 true = some s →
      s.nslices = 120000 / 250 ∧ s.curr_slice = 0 ∧ s.num_entries = 0 ∧
      s.slice_intvl = 250) :=
  twheel_factory_spec 250 120000 true

/-! ### Association-list helper lemmas -/

theorem updEntries_map_fst (l : List (Nat × TwEntry)) (id : Nat)
    (e : TwEntry) : (updEntries l id e).map Prod.fst = l.map Prod.fst := by
  induction l with
  | nil => rfl
  | cons p t ih =>
    by_cases h : p.1 = id
    · simp [updEntries, h] at ih ⊢
      exact ih
    · simp [updEntries, h] at ih ⊢
      exact ih

theorem mem_updEntries (l : List (Nat × TwEntry)) (id : Nat) (e : TwEntry)
    (p : Nat × TwEntry) (hp : p ∈ updEntries l id e) :
    (p.1 ≠ id ∧ p ∈ l) ∨ p = (id, e) := by
  rcases List.mem_map.1 hp with ⟨q, hq, hfq⟩
  by_cases h : q.1 = id
  · right
    rw [← hfq, if_pos h]
  · left
    rw [← hfq, if_neg h]
    exact ⟨h, hq⟩

theorem updEntries_cons (k : Nat) (v : TwEntry) (t : List (Nat × TwEntry))
    (id : Nat) (e : TwEntry) :
    updEntries ((k, v) :: t) id e =
      (if k = id then (id, e) else (k, v)) :: updEntries t id e := by
  by_cases h : k = id <;> simp [updEntries, h]

theorem lookup_updEntries_self (l : List (Nat × TwEntry)) (id : Nat)
    (e : TwEntry) :
    (updEntries l id e).lookup id = (l.lookup id).map fun _ => e := by
  induction l with
  | nil => rfl
  | cons p t ih =>
    obtain ⟨k, v⟩ := p
    rw [updEntries_cons]
    by_cases h : k = id
    · subst h
      rw [if_pos rfl]
      simp [List.lookup]
    · rw [if_neg h]
      have hb : (id == k) = false := by
        simp
        omega
      simp only [List.lookup, hb]
      exact ih

theorem lookup_updEntries_ne (l : List (Nat × TwEntry)) (id id' : Nat)
    (e : TwEntry) (h : id' ≠ id) :
    (updEntries l id e).lookup id' = l.lookup id' := by
  induction l with
  | nil => rfl
  | cons p t ih =>
    obtain ⟨k, v⟩ := p
    rw [updEntries_cons]
    by_cases hk : k = id
    · have hb1 : (id' == id) = false := by simpa using h
      subst hk
      rw [if_pos rfl]
      simp only [List.lookup, hb1]
      exact ih
    · rw [if_neg hk]
      by_cases hq : id' = k
      · subst hq
        simp [List.lookup]
      · have hb : (id' == k) = false := by simpa using hq
        simp only [List.lookup, hb]
        exact ih

theorem lookup_isSome_of_mem (l : List (Nat × TwEntry)) (p : Nat × TwEntry)
    (hp : p ∈ l) : (l.lookup p.1).isSome = true := by
  induction l with
  | nil => simp at hp
  | cons q t ih =>
    obtain ⟨k, v⟩ := q
    rcases List.mem_cons.1 hp with h | h
    · subst h
      simp [List.lookup]
    · by_cases hk : p.1 = k
      · simp [List.lookup, hk]
      · have hb : (p.1 == k) = false := by simpa using hk
        simp only [List.lookup, hb]
        exact ih h

theorem mem_of_lookup_eq_some (l : List (Nat × TwEntry)) (id : Nat)
    (e : TwEntry) (h : l.lookup id = some e) : (id, e) ∈ l := by
  induction l with
  | nil => simp [List.lookup] at h
  | cons q t ih =>
    obtain ⟨k, v⟩ := q
    by_cases hk : id = k
    · subst hk
      simp [List.lookup] at h
      subst h
      exact List.mem_cons_self _ _
    · have hb : (id == k) = false := by simpa using hk
      simp only [List.lookup, hb] at h
      exact List.mem_cons_of_mem _ (ih h)

theorem lookup_eq_some_of_mem_nodup (l : List (Nat × TwEntry))
    (hnd : (l.map Prod.fst).Nodup) (id : Nat) (e : TwEntry)
    (hmem : (id, e) ∈ l) : l.lookup id = some e := by
  induction l with
  | nil => simp at hmem
  | cons q t ih =>
    obtain ⟨k, v⟩ := q
    simp only [List.map, List.nodup_cons] at hnd
    rcases List.mem_cons.1 hmem with h | h
    · cases h
      simp [List.lookup]
    · have hid : id ∈ t.map Prod.fst := by
        have := List.mem_map_of_mem Prod.fst h
        simpa using this
      have hk : (id == k) = false := by
        simp
        intro habs
        subst habs
        exact hnd.1 hid
      simp only [List.lookup, hk]
      exact ih hnd.2 h

theorem lookup_eq_none_of_forall (l : List (Nat × TwEntry)) (id : Nat)
    (h : ∀ p ∈ l, p.1 ≠ id) : l.lookup id = none := by
  induction l with
  | nil => rfl
  | cons q t ih =>
    obtain ⟨k, v⟩ := q
    have hk : (id == k) = false := by
      have := h (k, v) (List.mem_cons_self _ _)
      simp at this
      simp
      omega
    simp only [List.lookup, hk]
    exact ih fun p hp => h p (List.mem_cons_of_mem _ hp)

theorem lookup_append_right (l₁ l₂ : List (Nat × TwEntry)) (id : Nat)
    (h : l₁.lookup id = none) : (l₁ ++ l₂).lookup id = l₂.lookup id := by
  induction l₁ with
  | nil => simp
  | cons q t ih =>
    obtain ⟨k, v⟩ := q
    by_cases hk : id = k
    · subst hk
      simp [List.lookup] at h
    · have hb : (id == k) = false := by simpa using hk
      simp only [List.lookup, hb] at h
      simp only [List.cons_append, List.lookup, hb]
      exact ih h

/-! ### Slice-array counting lemmas -/

theorem sum_map_set {α : Type} (f : α → Nat) (d : α) :
    ∀ (ls : List α) (j : Nat) (x : α), j < ls.length →
      ((ls.set j x).map f).sum + f (ls.getD j d) = (ls.map f).sum + f x := by
  intro ls
  induction ls with
  | nil =>
    intro j x h
    simp at h
  | cons a t ih =>
    intro j x h
    cases j with
    | zero =>
      simp [List.getD_cons_zero]
      omega
    | succ j =>
      simp only [List.set, List.map, List.sum_cons, List.getD_cons_succ]
      have := ih j x (by simpa using h)
      omega

theorem getD_set_self :
    ∀ (ls : List (List Nat)) (j : Nat) (x : List Nat), j < ls.length →
      (ls.set j x).getD j [] = x := by
  intro ls
  induction ls with
  | nil =>
    intro j x h
    simp at h
  | cons a t ih =>
    intro j x h
    cases j with
    | zero => simp
    | succ j =>
      simp only [List.set, List.getD_cons_succ]
      exact ih j x (by simpa using h)

theorem getD_set_ne :
    ∀ (ls : List (List Nat)) (i j : Nat) (x : List Nat), i ≠ j →
      (ls.set j x).getD i [] = ls.getD i [] := by
  intro ls
  induction ls with
  | nil =>
    intro i j x _
    simp [List.set]
  | cons a t ih =>
    intro i j x h
    cases j with
    | zero =>
      cases i with
      | zero => omega
      | succ i => simp [List.set, List.getD_cons_succ]
    | succ j =>
      cases i with
      | zero => simp [List.set]
      | succ i =>
        simp only [List.set, List.getD_cons_succ]
        exact ih i j x (by omega)

theorem linkCount_set (ls : List (List Nat)) (j : Nat) (x : List Nat)
    (id : Nat) (h : j < ls.length) :
    linkCount (ls.set j x) id + (ls.getD j []).count id =
      linkCount ls id + x.count id :=
  sum_map_set (fun l => l.count id) [] ls j x h

theorem totalLen_set (ls : List (List Nat)) (j : Nat) (x : List Nat)
    (h : j < ls.length) :
    totalLen (ls.set j x) + (ls.getD j []).length =
      totalLen ls + x.length :=
  sum_map_set List.length [] ls j x h

theorem count_le_linkCount_of_mem (ls : List (List Nat)) (l : List Nat)
    (id : Nat) (hl : l ∈ ls) : l.count id ≤ linkCount ls id := by
  induction ls with
  | nil => simp at hl
  | cons a t ih =>
    rcases List.mem_cons.1 hl with h | h
    · subst h
      simp only [linkCount, List.map, List.sum_cons]
      omega
    · have := ih h
      simp only [linkCount, List.map, List.sum_cons] at this ⊢
      omega

theorem not_mem_of_linkCount_zero (ls : List (List Nat)) (l : List Nat)
    (id : Nat) (hl : l ∈ ls) (hz : linkCount ls id = 0) : id ∉ l := by
  intro hmem
  have h1 : 0 < l.count id := List.count_pos_iff.2 hmem
  have h2 := count_le_linkCount_of_mem ls l id hl
  omega

theorem getD_mem (ls : List (List Nat)) (j : Nat) (h : j < ls.length) :
    ls.getD j [] ∈ ls := by
  induction ls generalizing j with
  | nil => simp at h
  | cons a t ih =>
    cases j with
    | zero => simp
    | succ j =>
      simp only [List.getD_cons_succ]
      exact List.mem_cons_of_mem _ (ih j (by simpa using h))

theorem count_getD_le_linkCount (ls : List (List Nat)) (j : Nat) (id : Nat)
    (h : j < ls.length) : (ls.getD j []).count id ≤ linkCount ls id :=
  count_le_linkCount_of_mem ls _ id (getD_mem ls j h)

/-! ### Invariant preservation lemmas -/

theorem TwInvUnlinked_updEntries (s : TwState) (id : Nat) (e' : TwEntry)
    (h : TwInvUnlinked s id) :
    TwInvUnlinked { s with entries := updEntries s.entries id e' } id ∧
    (updEntries s.entries id e').lookup id = some e' := by
  obtain ⟨h1, h2, h3, h4, h5, h6, h7, h8, h9⟩ := h
  have hlk : (updEntries s.entries id e').lookup id = some e' := by
    rw [lookup_updEntries_self]
    rcases hopt : s.entries.lookup id with _ | v
    · rw [hopt] at h4
      simp at h4
    · simp
  refine ⟨⟨h1, h2, ?_, ?_, h5, h6, ?_, ?_, h9⟩, hlk⟩
  · rw [updEntries_map_fst]
    exact h3
  · rw [hlk]
    simp
  · intro p hp hpne
    rcases mem_updEntries _ _ _ p hp with ⟨_, hmem⟩ | heq
    · exact h7 p hmem hpne
    · cases heq
      simp at hpne
  · intro l hl i hi
    by_cases hii : i = id
    · subst hii
      rw [hlk]
      simp
    · rw [lookup_updEntries_ne _ _ _ _ hii]
      exact h8 l hl i hi

theorem TwInv_updEntries_same_slice (s : TwState) (id : Nat) (e e' : TwEntry)
    (h : TwInv s) (hlk : s.entries.lookup id = some e)
    (hsl : e'.slice = e.slice) :
    TwInv { s with entries := updEntries s.entries id e' } := by
  obtain ⟨h1, h2, h3, h4, h5, h6⟩ := h
  have hide : (id, e) ∈ s.entries := mem_of_lookup_eq_some _ _ _ hlk
  refine ⟨h1, h2, ?_, ?_, ?_, h6⟩
  · rw [updEntries_map_fst]
    exact h3
  · intro p hp
    rcases mem_updEntries _ _ _ p hp with ⟨_, hmem⟩ | heq
    · exact h4 p hmem
    · cases heq
      obtain ⟨c1, c2, c3, c4⟩ := h4 (id, e) hide
      exact ⟨hsl ▸ c1, hsl ▸ c2, c3, c4⟩
  · intro l hl i hi
    by_cases hii : i = id
    · subst hii
      rw [lookup_updEntries_self, hlk]
      simp
    · rw [lookup_updEntries_ne _ _ _ _ hii]
      exact h5 l hl i hi

theorem insert_timer_eq (s : TwState) (id : Nat) (e : TwEntry)
    (hlk : s.entries.lookup id = some e) :
    insert_timer_ s id =
      { s with
        slices := s.slices.set e.slice (id :: s.slices.getD e.slice [])
        entries := updEntries s.entries id { e with valid := true }
        num_entries := s.num_entries + 1 } := by
  unfold insert_timer_
  rw [hlk]

theorem unlink_timer_eq (s : TwState) (id : Nat) (e : TwEntry)
    (hlk : s.entries.lookup id = some e) :
    unlink_timer_ s id =
      { s with
        slices := s.slices.set e.slice ((s.slices.getD e.slice []).erase id)
        num_entries := s.num_entries - 1 } := by
  unfold unlink_timer_
  rw [hlk]

theorem remove_timer_eq (s : TwState) (id : Nat) (e : TwEntry)
    (hlk : s.entries.lookup id = some e) (hv : e.valid = true) :
    remove_timer_ s id =
      { s with
        slices := s.slices.set e.slice ((s.slices.getD e.slice []).erase id)
        entries := updEntries s.entries id { e with valid := false }
        num_entries := s.num_entries - 1 } := by
  unfold remove_timer_
  rw [hlk]
  dsimp only
  rw [if_neg (by simp [hv]), unlink_timer_eq s id e hlk]

theorem TwInv_insert (s : TwState) (id : Nat) (e : TwEntry)
    (h : TwInvUnlinked s id) (hlk : s.entries.lookup id = some e)
    (hsl : e.slice < s.nslices) : TwInv (insert_timer_ s id) := by
  obtain ⟨h1, h2, h3, h4, h5, h6, h7, h8, h9⟩ := h
  have hsl' : e.slice < s.slices.length := by omega
  rw [insert_timer_eq s id e hlk]
  have hLmem : s.slices.getD e.slice [] ∈ s.slices := getD_mem _ _ hsl'
  have hLcount : (s.slices.getD e.slice []).count id = 0 :=
    List.count_eq_zero.2 (not_mem_of_linkCount_zero _ _ id hLmem h5)
  unfold TwInv
  dsimp only
  refine ⟨?_, h2, ?_, ?_, ?_, ?_⟩
  · simpa using h1
  · rw [updEntries_map_fst]
    exact h3
  · intro p hp
    rcases mem_updEntries _ _ _ p hp with ⟨hne, hmem⟩ | heq
    · obtain ⟨c1, c2, c3, c4⟩ := h7 p hmem hne
      refine ⟨c1, ?_, ?_, c4⟩
      · by_cases hps : p.2.slice = e.slice
        · rw [hps, getD_set_self _ _ _ hsl', List.count_cons_of_ne hne]
          rw [hps] at c2
          exact c2
        · rw [getD_set_ne _ _ _ _ hps]
          exact c2
      · have hset := linkCount_set s.slices e.slice
          (id :: s.slices.getD e.slice []) p.1 hsl'
        rw [List.count_cons_of_ne hne] at hset
        omega
    · cases heq
      dsimp only
      refine ⟨hsl, ?_, ?_, h6⟩
      · rw [getD_set_self _ _ _ hsl', List.count_cons_self, hLcount]
      · have hset := linkCount_set s.slices e.slice
          (id :: s.slices.getD e.slice []) id hsl'
        rw [List.count_cons_self] at hset
        omega
  · intro l hl i hi
    have hsome : (s.entries.lookup i).isSome = true := by
      rcases List.mem_or_eq_of_mem_set hl with hmem | heq2
      · exact h8 _ hmem i hi
      · subst heq2
        rcases List.mem_cons.1 hi with hii | hii
        · subst hii
          exact h4
        · exact h8 _ hLmem i hii
    by_cases hii : i = id
    · subst hii
      rw [lookup_updEntries_self, hlk]
      simp
    · rw [lookup_updEntries_ne _ _ _ _ hii]
      exact hsome
  · have hset := totalLen_set s.slices e.slice
      (id :: s.slices.getD e.slice []) hsl'
    simp only [List.length_cons] at hset
    omega

theorem TwInvUnlinked_remove (s : TwState) (id : Nat) (e : TwEntry)
    (h : TwInv s) (hlk : s.entries.lookup id = some e)
    (hv : e.valid = true) :
    TwInvUnlinked (remove_timer_ s id) id ∧
    (remove_timer_ s id).entries.lookup id = some { e with valid := false } ∧
    (remove_timer_ s id).nslices = s.nslices ∧
    (remove_timer_ s id).curr_slice = s.curr_slice ∧
    (remove_timer_ s id).slice_intvl = s.slice_intvl := by
  obtain ⟨h1, h2, h3, h4, h5, h6⟩ := h
  have hide : (id, e) ∈ s.entries := mem_of_lookup_eq_some _ _ _ hlk
  obtain ⟨c1, c2, c3, c4⟩ := h4 (id, e) hide
  dsimp only at c1 c2 c3 c4
  have hsl' : e.slice < s.slices.length := by omega
  have hmemL : id ∈ s.slices.getD e.slice [] := by
    have : 0 < (s.slices.getD e.slice []).count id := by omega
    exact List.count_pos_iff.1 this
  rw [remove_timer_eq s id e hlk hv]
  have hcount_erase :
      ((s.slices.getD e.slice []).erase id).count id =
        (s.slices.getD e.slice []).count id - 1 :=
    List.count_erase_self id _
  have hlen_erase :
      ((s.slices.getD e.slice []).erase id).length =
        (s.slices.getD e.slice []).length - 1 :=
    List.length_erase_of_mem hmemL
  have hlenL : 0 < (s.slices.getD e.slice []).length := by
    have hcl := List.count_le_length id (s.slices.getD e.slice [])
    omega
  have hsetc := linkCount_set s.slices e.slice
    ((s.slices.getD e.slice []).erase id) id hsl'
  rw [hcount_erase] at hsetc
  have hlc0 : linkCount
      (s.slices.set e.slice ((s.slices.getD e.slice []).erase id)) id = 0 := by
    omega
  have hlkup : (updEntries s.entries id { e with valid := false }).lookup id =
      some { e with valid := false } := by
    rw [lookup_updEntries_self, hlk]
    rfl
  unfold TwInvUnlinked
  dsimp only
  refine ⟨⟨by simpa using h1, h2, ?_, ?_, hlc0, c4, ?_, ?_, ?_⟩, hlkup, rfl,
    rfl, rfl⟩
  · rw [updEntries_map_fst]
    exact h3
  · rw [hlkup]
    simp
  · intro p hp hpne
    rcases mem_updEntries _ _ _ p hp with ⟨_, hmem⟩ | heq
    · obtain ⟨d1, d2, d3, d4⟩ := h4 p hmem
      refine ⟨d1, ?_, ?_, d4⟩
      · by_cases hps : p.2.slice = e.slice
        · rw [hps, getD_set_self _ _ _ hsl',
            List.count_erase_of_ne hpne]
          rw [hps] at d2
          exact d2
        · rw [getD_set_ne _ _ _ _ hps]
          exact d2
      · have hsetp := linkCount_set s.slices e.slice
          ((s.slices.getD e.slice []).erase id) p.1 hsl'
        rw [List.count_erase_of_ne hpne] at hsetp
        omega
    · cases heq
      simp at hpne
  · intro l hl i hi
    have hii : i ≠ id := by
      intro habs
      subst habs
      exact not_mem_of_linkCount_zero _ l i hl hlc0 hi
    rw [lookup_updEntries_ne _ _ _ _ hii]
    rcases List.mem_or_eq_of_mem_set hl with hmem | heq2
    · exact h5 _ hmem i hi
    · subst heq2
      exact h5 _ (getD_mem _ _ hsl') i (List.mem_of_mem_erase hi)
  · have hsetl := totalLen_set s.slices e.slice
      ((s.slices.getD e.slice []).erase id) hsl'
    rw [hlen_erase] at hsetl
    omega

theorem TwInvUnlinked_alloc (s : TwState) (e : TwEntry) (h : TwInv s) :
    TwInvUnlinked
      { s with
        entries := s.entries ++ [(s.next_id, e)]
        next_id := s.next_id + 1 } s.next_id ∧
    (s.entries ++ [(s.next_id, e)]).lookup s.next_id = some e := by
  obtain ⟨h1, h2, h3, h4, h5, h6⟩ := h
  have hfresh : ∀ p ∈ s.entries, p.1 ≠ s.next_id := by
    intro p hp
    have := (h4 p hp).2.2.2
    omega
  have hnone : s.entries.lookup s.next_id = none :=
    lookup_eq_none_of_forall _ _ hfresh
  have hlkup : (s.entries ++ [(s.next_id, e)]).lookup s.next_id = some e := by
    rw [lookup_append_right _ _ _ hnone]
    simp [List.lookup]
  have hlc0 : linkCount s.slices s.next_id = 0 := by
    by_contra habs
    have hpos : 0 < linkCount s.slices s.next_id := by omega
    obtain ⟨l, hl, hmem⟩ : ∃ l ∈ s.slices, s.next_id ∈ l := by
      by_contra hno
      push_neg at hno
      have : linkCount s.slices s.next_id = 0 := by
        unfold linkCount
        apply List.sum_eq_zero
        intro x hx
        rcases List.mem_map.1 hx with ⟨l, hl, hxl⟩
        rw [← hxl]
        exact List.count_eq_zero.2 (hno l hl)
      omega
    have hsome := h5 l hl s.next_id hmem
    rcases hopt : s.entries.lookup s.next_id with _ | v
    · rw [hopt] at hsome
      simp at hsome
    · have := (h4 _ (mem_of_lookup_eq_some _ _ _ hopt)).2.2.2
      dsimp only at this
      omega
  unfold TwInvUnlinked
  dsimp only
  refine ⟨⟨h1, h2, ?_, by rw [hlkup]; rfl, hlc0, by omega, ?_, ?_, h6⟩, hlkup⟩
  · rw [List.map_append]
    rw [List.nodup_append]
    refine ⟨h3, by simp, ?_⟩
    intro a ha hb
    simp at hb
    rcases List.mem_map.1 ha with ⟨p, hp, hpa⟩
    exact hfresh p hp (by rw [hpa, hb])
  · intro p hp hpne
    rcases List.mem_append.1 hp with hmem | hmem
    · obtain ⟨d1, d2, d3, d4⟩ := h4 p hmem
      exact ⟨d1, d2, d3, by omega⟩
    · simp at hmem
      rw [hmem] at hpne
      simp at hpne
  · intro l hl i hi
    have hsome := h5 l hl i hi
    rcases hopt : s.entries.lookup i with _ | v
    · rw [hopt] at hsome
      simp at hsome
    · have hmm : (i, v) ∈ s.entries ++ [(s.next_id, e)] :=
        List.mem_append_left _ (mem_of_lookup_eq_some _ _ _ hopt)
      exact lookup_isSome_of_mem _ (i, v) hmm

theorem TwInv_dealloc (s : TwState) (id : Nat) (e : TwEntry)
    (h : TwInv s) (hlk : s.entries.lookup id = some e) :
    TwInv
      (let s1 := unlink_timer_ s id
       { s1 with entries := s1.entries.filter (fun p => p.1 != id) }) := by
  obtain ⟨h1, h2, h3, h4, h5, h6⟩ := h
  have hide : (id, e) ∈ s.entries := mem_of_lookup_eq_some _ _ _ hlk
  obtain ⟨c1, c2, c3, c4⟩ := h4 (id, e) hide
  dsimp only at c1 c2 c3 c4
  have hsl' : e.slice < s.slices.length := by omega
  have hmemL : id ∈ s.slices.getD e.slice [] := by
    have : 0 < (s.slices.getD e.slice []).count id := by omega
    exact List.count_pos_iff.1 this
  have hlenL : 0 < (s.slices.getD e.slice []).length := by
    have hcl := List.count_le_length id (s.slices.getD e.slice [])
    omega
  rw [unlink_timer_eq s id e hlk]
  have hcount_erase :
      ((s.slices.getD e.slice []).erase id).count id =
        (s.slices.getD e.slice []).count id - 1 :=
    List.count_erase_self id _
  have hlen_erase :
      ((s.slices.getD e.slice []).erase id).length =
        (s.slices.getD e.slice []).length - 1 :=
    List.length_erase_of_mem hmemL
  have hsetc := linkCount_set s.slices e.slice
    ((s.slices.getD e.slice []).erase id) id hsl'
  rw [hcount_erase] at hsetc
  have hlc0 : linkCount
      (s.slices.set e.slice ((s.slices.getD e.slice []).erase id)) id = 0 := by
    omega
  unfold TwInv
  dsimp only
  refine ⟨by simpa using h1, h2, ?_, ?_, ?_, ?_⟩
  · exact ((List.filter_sublist _).map Prod.fst).nodup h3
  · intro p hp
    have hp2 := List.mem_filter.1 hp
    have hpne : p.1 ≠ id := by simpa using hp2.2
    obtain ⟨d1, d2, d3, d4⟩ := h4 p hp2.1
    refine ⟨d1, ?_, ?_, d4⟩
    · by_cases hps : p.2.slice = e.slice
      · rw [hps, getD_set_self _ _ _ hsl', List.count_erase_of_ne hpne]
        rw [hps] at d2
        exact d2
      · rw [getD_set_ne _ _ _ _ hps]
        exact d2
    · have hsetp := linkCount_set s.slices e.slice
        ((s.slices.getD e.slice []).erase id) p.1 hsl'
      rw [List.count_erase_of_ne hpne] at hsetp
      omega
  · intro l hl i hi
    have hii : i ≠ id := by
      intro habs
      subst habs
      exact not_mem_of_linkCount_zero _ l i hl hlc0 hi
    have hsome : (s.entries.lookup i).isSome = true := by
      rcases List.mem_or_eq_of_mem_set hl with hmem | heq2
      · exact h5 _ hmem i hi
      · subst heq2
        exact h5 _ (getD_mem _ _ hsl') i (List.mem_of_mem_erase hi)
    rcases hopt : s.entries.lookup i with _ | v
    · rw [hopt] at hsome
      simp at hsome
    · have hmemi : (i, v) ∈ s.entries.filter (fun p => p.1 != id) := by
        rw [List.mem_filter]
        exact ⟨mem_of_lookup_eq_some _ _ _ hopt, by simpa using hii⟩
      exact lookup_isSome_of_mem _ (i, v) hmemi
  · have hsetl := totalLen_set s.slices e.slice
      ((s.slices.getD e.slice []).erase id) hsl'
    rw [hlen_erase] at hsetl
    omega

theorem TwInv_upd_insert (s : TwState) (id : Nat) (e1 : TwEntry)
    (h : TwInvUnlinked s id) (hsl : e1.slice < s.nslices) :
    TwInv (insert_timer_ { s with entries := updEntries s.entries id e1 } id) ∧
    (insert_timer_
        { s with entries := updEntries s.entries id e1 } id).entries.lookup
      id = some { e1 with valid := true } := by
  obtain ⟨hU1, hlk1⟩ := TwInvUnlinked_updEntries s id e1 h
  constructor
  · exact TwInv_insert _ _ _ hU1 hlk1 hsl
  · rw [insert_timer_eq { s with entries := updEntries s.entries id e1 }
      id e1 hlk1]
    dsimp only
    rw [lookup_updEntries_self, hlk1]
    rfl

theorem TwInv_delay_delete (s : TwState) (id : Nat)
    (h : TwInvUnlinked s id) : TwInv (delay_delete_ s id) := by
  have hN : 0 < s.nslices := h.2.1
  rcases hopt : s.entries.lookup id with _ | e
  · have h4 := h.2.2.2.1
    rw [hopt] at h4
    simp at h4
  · unfold delay_delete_
    rw [hopt]
    dsimp only
    obtain ⟨hI, hL⟩ := TwInv_upd_insert s id
      (init_twentry_ s e.timer_id TWHEEL_DELAY_DELETE false none none
        (next_slice_ s TWHEEL_DELAY_DELETE e.slice true)) h
      (next_slice_lt s TWHEEL_DELAY_DELETE e.slice true hN)
    exact TwInv_updEntries_same_slice _ id _ _ hI hL rfl

theorem bool_eq_true_of_ne_false (b : Bool) (h : ¬b = false) : b = true := by
  cases b
  · exact absurd rfl h
  · rfl

theorem TwInv_add_timer (s : TwState) (h : TwInv s) (timer_id timeout : Nat)
    (ctxt cb : Option Nat) (periodic : Bool) (initial_delay : Nat) :
    TwInv (add_timer s timer_id timeout ctxt cb periodic initial_delay).1 := by
  unfold add_timer
  dsimp only
  obtain ⟨hU, hlk⟩ := TwInvUnlinked_alloc s
    (init_twentry_ s timer_id timeout periodic ctxt cb
      (next_slice_ s ((initial_delay + timeout) % U64) 0 false)) h
  refine TwInv_insert _ _ _ hU hlk ?_
  show next_slice_ s ((initial_delay + timeout) % U64) 0 false < s.nslices
  exact next_slice_lt s _ _ _ h.2.1

theorem TwInv_del_timer (s : TwState) (h : TwInv s) (hdl : Option Nat) :
    TwInv (del_timer s hdl).1 := by
  rcases hdl with _ | id
  · exact h
  · unfold del_timer
    dsimp only
    rcases hopt : s.entries.lookup id with _ | e
    · exact h
    · dsimp only
      by_cases hv : e.valid = false
      · rw [if_pos hv]
        exact h
      · rw [if_neg hv]
        have hv2 : e.valid = true := bool_eq_true_of_ne_false _ hv
        dsimp only
        obtain ⟨hU, -, -, -, -⟩ := TwInvUnlinked_remove s id e h hopt hv2
        exact TwInv_delay_delete _ id hU

theorem TwInv_upd_timer (s : TwState) (h : TwInv s) (hdl : Option Nat)
    (timeout : Nat) (periodic : Bool) (ctxt : Option Nat) :
    TwInv (upd_timer s hdl timeout periodic ctxt).1 := by
  rcases hdl with _ | id
  · exact h
  · unfold upd_timer
    dsimp only
    rcases hopt : s.entries.lookup id with _ | e
    · exact h
    · dsimp only
      by_cases hv : e.valid = false
      · rw [if_pos hv]
        exact h
      · rw [if_neg hv]
        have hv2 : e.valid = true := bool_eq_true_of_ne_false _ hv
        dsimp only
        obtain ⟨hU, -, -, -, -⟩ := TwInvUnlinked_remove s id e h hopt hv2
        obtain ⟨hU2, hlk3⟩ := TwInvUnlinked_updEntries (remove_timer_ s id) id
          (init_twentry_ (remove_timer_ s id) e.timer_id timeout periodic ctxt
            e.cb (next_slice_ (remove_timer_ s id) (timeout % U64) e.slice
              true)) hU
        refine TwInv_insert _ _ _ hU2 hlk3 ?_
        show next_slice_ (remove_timer_ s id) (timeout % U64) e.slice true <
          (remove_timer_ s id).nslices
        exact next_slice_lt _ _ _ _ hU.2.1

theorem TwInv_tick_entry (s : TwState) (id : Nat) (h : TwInv s) :
    TwInv (tick_entry s id) := by
  unfold tick_entry
  rcases hopt : s.entries.lookup id with _ | e
  · exact h
  · dsimp only
    by_cases hval : e.valid = false
    · rw [if_pos hval]
      exact TwInv_dealloc s id e h hopt
    · rw [if_neg hval]
      have hv2 : e.valid = true := bool_eq_true_of_ne_false _ hval
      by_cases hns : e.nspins ≠ 0
      · rw [if_pos hns]
        exact TwInv_updEntries_same_slice s id e
          { e with nspins := e.nspins - 1 } h hopt rfl
      · rw [if_neg hns]
        by_cases hper : e.periodic = true
        · rw [if_pos hper]
          unfold upd_timer_int
          rw [hopt]
          dsimp only
          obtain ⟨hU, -, -, -, -⟩ := TwInvUnlinked_remove s id e h hopt hv2
          obtain ⟨hU2, hlk3⟩ := TwInvUnlinked_updEntries (remove_timer_ s id)
            id (init_twentry_ (remove_timer_ s id) e.timer_id e.timeout true
              e.ctxt e.cb (next_slice_ (remove_timer_ s id)
                (e.timeout % U64) e.slice true)) hU
          refine TwInv_insert _ _ _ hU2 hlk3 ?_
          show next_slice_ (remove_timer_ s id) (e.timeout % U64) e.slice
            true < (remove_timer_ s id).nslices
          exact next_slice_lt _ _ _ _ hU.2.1
        · rw [if_neg hper]
          obtain ⟨hU, -, -, -, -⟩ := TwInvUnlinked_remove s id e h hopt hv2
          exact TwInv_delay_delete _ id hU

theorem TwInv_foldl (l : List Nat) (s : TwState) (h : TwInv s) :
    TwInv (l.foldl tick_entry s) := by
  induction l generalizing s with
  | nil => exact h
  | cons a t ih => exact ih _ (TwInv_tick_entry s a h)

theorem TwInv_curr_update (s : TwState) (c : Nat) (h : TwInv s) :
    TwInv { s with curr_slice := c } := by
  obtain ⟨h1, h2, h3, h4, h5, h6⟩ := h
  exact ⟨h1, h2, h3, h4, h5, h6⟩

theorem TwInv_tick_step (s : TwState) (h : TwInv s) :
    TwInv (tick_step s) := by
  unfold tick_step
  dsimp only
  exact TwInv_curr_update _ _ (TwInv_foldl _ s h)

theorem TwInv_tick_loop (n : Nat) :
    ∀ s : TwState, TwInv s → TwInv (tick_loop n s) := by
  induction n with
  | zero =>
    intro s h
    exact h
  | succ n ih =>
    intro s h
    exact ih _ (TwInv_tick_step s h)

theorem TwInv_tick (s : TwState) (h : TwInv s) (msecs : Nat) :
    TwInv (tick s msecs) := by
  unfold tick
  split
  · exact h
  · exact TwInv_tick_loop _ s h

/-! ### Claim C3 -/

/-- Claim C3: the wheel invariant (each allocated, not yet reclaimed entry
is linked into exactly one slice list, and `num_entries_` equals the total
number of linked entries, delay-delete corpses included) is preserved by
`add_timer`, `del_timer`, `upd_timer` and `tick`. -/
theorem tw_ops_preserve_invariant (s : TwState) (hInv : TwInv s)
    (timer_id timeout : Nat) (ctxt cb : Option Nat) (periodic : Bool)
    (initial_delay : Nat) (hd hu : Option Nat) (uto : Nat) (uper : Bool)
    (uctx : Option Nat) (msecs : Nat) :
    TwInv (add_timer s timer_id timeout ctxt cb periodic initial_delay).1 ∧
    TwInv (del_timer s hd).1 ∧
    TwInv (upd_timer s hu uto uper uctx).1 ∧
    TwInv (tick s msecs) :=
  ⟨TwInv_add_timer s hInv timer_id timeout ctxt cb periodic initial_delay,
   TwInv_del_timer s hInv hd,
   TwInv_upd_timer s hInv hu uto uper uctx,
   TwInv_tick s hInv msecs⟩

/-- Witness for claim C3 on the concrete 4-slice wheel `twW` holding one
live entry: the invariant holds before and after each of the four
operations. -/
theorem tw_ops_preserve_invariant_witness :
    TwInv twW ∧
    (TwInv (add_timer twW 7 900 (some 5) (some 1) true 0).1 ∧
     TwInv (del_timer twW (some 0)).1 ∧
     TwInv (upd_timer twW (some 0) 300 false none).1 ∧
     TwInv (tick twW 500)) :=
  ⟨by decide,
   tw_ops_preserve_invariant twW (by decide) 7 900 (some 5) (some 1) true 0
     (some 0) (some 0) 300 false none 500⟩

/-! ### Claim C1 -/

theorem delay_delete_lookup (s : TwState) (id : Nat) (e : TwEntry)
    (hlk : s.entries.lookup id = some e) :
    ∃ e2, (delay_delete_ s id).entries.lookup id = some e2 ∧
      e2.valid = false ∧ e2.ctxt = none := by
  unfold delay_delete_
  rw [hlk]
  dsimp only
  generalize hE : init_twentry_ s e.timer_id TWHEEL_DELAY_DELETE false none
    none (next_slice_ s TWHEEL_DELAY_DELETE e.slice true) = e1
  have hc : e1.ctxt = none := by
    rw [← hE]
    rfl
  have hlk1 : (updEntries s.entries id e1).lookup id = some e1 := by
    rw [lookup_updEntries_self, hlk]
    rfl
  have heq := insert_timer_eq { s with entries := updEntries s.entries id e1 }
    id e1 hlk1
  refine ⟨{ e1 with valid := false }, ?_, rfl, hc⟩
  rw [lookup_updEntries_self, heq]
  dsimp only
  rw [lookup_updEntries_self, hlk1]
  rfl

theorem del_timer_valid_eq (s : TwState) (id : Nat) (e : TwEntry)
    (hlk : s.entries.lookup id = some e) (hv : e.valid = true) :
    del_timer s (some id) =
      (delay_delete_ (remove_timer_ s id) id, e.ctxt) := by
  unfold del_timer
  dsimp only
  rw [hlk]
  dsimp only
  rw [if_neg (by simp [hv])]

/-- Claim C1 (amended): for a live entry, the first `del_timer` returns
the stored context and moves the entry to a delay-delete corpse
(`valid_ = false`, context reset to NULL by `delay_delete_`); a second
consecutive `del_timer` on the same handle is a no-op that does not change
the wheel and returns the context now stored in the corpse, namely NULL --
which equals the first return value only when the original context was
NULL. -/
theorem del_timer_idempotent_nulls_ctx (s : TwState) (id : Nat)
    (e : TwEntry) (hlk : s.entries.lookup id = some e)
    (hv : e.valid = true) :
    (del_timer s (some id)).2 = e.ctxt ∧
    (∃ e2, (del_timer s (some id)).1.entries.lookup id = some e2 ∧
      e2.valid = false ∧ e2.ctxt = none) ∧
    del_timer (del_timer s (some id)).1 (some id) =
      ((del_timer s (some id)).1, none) := by
  have hdel := del_timer_valid_eq s id e hlk hv
  have hlk1 : (remove_timer_ s id).entries.lookup id =
      some { e with valid := false } := by
    rw [remove_timer_eq s id e hlk hv]
    dsimp only
    rw [lookup_updEntries_self, hlk]
    rfl
  obtain ⟨e2, hlk2, hval2, hctx2⟩ :=
    delay_delete_lookup (remove_timer_ s id) id _ hlk1
  have hdel2 : del_timer (delay_delete_ (remove_timer_ s id) id) (some id) =
      (delay_delete_ (remove_timer_ s id) id, e2.ctxt) := by
    unfold del_timer
    dsimp only
    rw [hlk2]
    dsimp only
    rw [if_pos hval2]
  refine ⟨by rw [hdel], ⟨e2, ?_, hval2, hctx2⟩, ?_⟩
  · rw [hdel]
    exact hlk2
  · rw [hdel]
    dsimp only
    rw [hdel2, hctx2]

/-- Witness for the amended claim C1 on the concrete wheel `twW`. -/
theorem del_timer_idempotent_nulls_ctx_witness :
    (del_timer twW (some 0)).2 = twentryW.ctxt ∧
    (∃ e2, (del_timer twW (some 0)).1.entries.lookup 0 = some e2 ∧
      e2.valid = false ∧ e2.ctxt = none) ∧
    del_timer (del_timer twW (some 0)).1 (some 0) =
      ((del_timer twW (some 0)).1, none) :=
  del_timer_idempotent_nulls_ctx twW 0 twentryW (by decide) (by decide)

/-- Claim C1 counterexample: on the concrete wheel `twW` whose live entry
stores context 7, the first `del_timer` returns `some 7` but the second
consecutive `del_timer` returns NULL, so the two calls do not return the
same context (the claim asserts they do). -/
theorem del_timer_same_ctx_counterexample :
    (del_timer twW (some 0)).2 = some 7 ∧
    (del_timer (del_timer twW (some 0)).1 (some 0)).2 = none ∧
    (del_timer (del_timer twW (some 0)).1 (some 0)).2 ≠
      (del_timer twW (some 0)).2 := by
  refine ⟨by decide, by decide, by decide⟩

/-! ### Claim C4 -/

/-- Claim C4 (amended): for a non-nil handle, `get_timeout_remaining`
returns `nspins * (N * g) + ((slice - curr + N) mod N) * g` provided the
arithmetic stays in range: the entry fields respect their C types
(`nspins` fits 16 bits), `slice` and `curr_slice` are below `N`,
`2 * N ≤ 2^32` (so the 32-bit computation `slice - curr + N` cannot wrap),
and neither `N * g` nor the resulting sum overflows 64 bits; for a nil
handle the result is 0.  Without the `2 * N ≤ 2^32` bound the 32-bit
computation can wrap (see the counterexample). -/
theorem get_timeout_remaining_formula (s : TwState) (id : Nat) (e : TwEntry)
    (hlk : s.entries.lookup id = some e) (hn16 : e.nspins < U16)
    (hs : e.slice < s.nslices) (hc : s.curr_slice < s.nslices)
    (hN : 2 * s.nslices ≤ U32)
    (hNg : s.nslices * s.slice_intvl < U64)
    (hfit : e.nspins * (s.nslices * s.slice_intvl) +
      ((e.slice + s.nslices - s.curr_slice) % s.nslices) * s.slice_intvl <
      U64) :
    get_timeout_remaining s (some id) =
      e.nspins * (s.nslices * s.slice_intvl) +
        ((e.slice + s.nslices - s.curr_slice) % s.nslices) * s.slice_intvl ∧
    get_timeout_remaining s none = 0 := by
  constructor
  · unfold get_timeout_remaining
    dsimp only
    rw [hlk]
    unfold remaining_of
    dsimp only
    have hc32 : s.curr_slice % U32 = s.curr_slice := by
      apply Nat.mod_eq_of_lt
      simp only [U32] at hN ⊢
      omega
    rw [hc32]
    have hBB : (((e.slice + (U32 - s.curr_slice)) % U32) + s.nslices) % U32 =
        e.slice + s.nslices - s.curr_slice := by
      simp only [U32] at hN ⊢
      omega
    rw [hBB, Nat.mod_eq_of_lt hNg]
    have hle1 : e.nspins * (s.nslices * s.slice_intvl) < U64 := by omega
    have hle2 : ((e.slice + s.nslices - s.curr_slice) % s.nslices) *
        s.slice_intvl < U64 := by omega
    rw [Nat.mod_eq_of_lt hle1, Nat.mod_eq_of_lt hle2, Nat.mod_eq_of_lt hfit]
  · rfl

/-- Witness for the amended claim C4 on the small wheel `twW`: the entry
in slice 1 with the current slice at 0 has 100 ms remaining. -/
theorem get_timeout_remaining_formula_witness :
    get_timeout_remaining twW (some 0) =
      twentryW.nspins * (twW.nslices * twW.slice_intvl) +
        ((twentryW.slice + twW.nslices - twW.curr_slice) % twW.nslices) *
          twW.slice_intvl ∧
    get_timeout_remaining twW none = 0 :=
  get_timeout_remaining_formula twW 0 twentryW (by decide) (by decide)
    (by decide) (by decide) (by decide) (by decide) (by decide)

/-- Claim C4 counterexample: on the wheel `twHuge` with `2^31 + 2` slices
the 32-bit computation `slice - curr + N` wraps, so with the entry parked
in the last slice and the current slice at 0, `get_timeout_remaining`
returns 3 ms instead of the `(slice - curr + N) mod N = 2^31 + 1` ms the
claim demands. -/
theorem get_timeout_remaining_wrap_counterexample :
    twentryHuge.slice < twHuge.nslices ∧
    twHuge.curr_slice < twHuge.nslices ∧
    get_timeout_remaining twHuge (some 0) = 3 ∧
    twentryHuge.nspins * (twHuge.nslices * twHuge.slice_intvl) +
        ((twentryHuge.slice + twHuge.nslices - twHuge.curr_slice) %
          twHuge.nslices) * twHuge.slice_intvl = 2147483649 ∧
    get_timeout_remaining twHuge (some 0) ≠
      twentryHuge.nspins * (twHuge.nslices * twHuge.slice_intvl) +
        ((twentryHuge.slice + twHuge.nslices - twHuge.curr_slice) %
          twHuge.nslices) * twHuge.slice_intvl := by
  refine ⟨by decide, by decide, by decide, by decide, by decide⟩

/-! ### Claim C9 -/

/-- Claim C9: `init_twentry_` (the common store path of `add_timer` and
`upd_timer`) keeps only the low 16 bits of `timeout / (N * g)` in the
`uint16_t` field `nspins_`; whenever the true quotient is at least
`2^16`, the stored spin count is strictly smaller than the requested
number of full rotations, and the remaining time the wheel itself reports
for the entry (`get_timeout_remaining` arithmetic) is strictly below the
requested timeout: the effective wait is shorter than requested. -/
theorem init_twentry_nspins_wraps (s : TwState) (timer_id timeout : Nat)
    (periodic : Bool) (ctxt cb : Option Nat) (sl : Nat)
    (hg : 0 < s.slice_intvl) (hN0 : 0 < s.nslices) (ht : timeout < U64)
    (hn : 65536 ≤ timeout / (s.nslices * s.slice_intvl)) :
    (init_twentry_ s timer_id timeout periodic ctxt cb sl).nspins =
      (timeout / (s.nslices * s.slice_intvl)) % 65536 ∧
    (init_twentry_ s timer_id timeout periodic ctxt cb sl).nspins <
      timeout / (s.nslices * s.slice_intvl) ∧
    remaining_of s.nslices s.slice_intvl s.curr_slice
      (init_twentry_ s timer_id timeout periodic ctxt cb sl) < timeout := by
  have hNG : 0 < s.nslices * s.slice_intvl := Nat.mul_pos hN0 hg
  have hmul : 65536 * (s.nslices * s.slice_intvl) ≤ timeout :=
    (Nat.le_div_iff_mul_le hNG).1 hn
  have hNGU : s.nslices * s.slice_intvl < U64 := by
    have h65 : s.nslices * s.slice_intvl ≤
        65536 * (s.nslices * s.slice_intvl) := by
      have := Nat.mul_le_mul_right (s.nslices * s.slice_intvl)
        (show 1 ≤ 65536 by norm_num)
      simpa using this
    omega
  have hns : (init_twentry_ s timer_id timeout periodic ctxt cb sl).nspins =
      (timeout / (s.nslices * s.slice_intvl)) % 65536 := by
    show ((timeout % U64) / ((s.nslices * s.slice_intvl) % U64)) % U16 = _
    rw [Nat.mod_eq_of_lt ht, Nat.mod_eq_of_lt hNGU]
    rfl
  have hn16 : (init_twentry_ s timer_id timeout periodic ctxt cb sl).nspins <
      65536 := by
    rw [hns]
    exact Nat.mod_lt _ (by norm_num)
  refine ⟨hns, ?_, ?_⟩
  · rw [hns]
    omega
  · unfold remaining_of
    dsimp only
    rw [Nat.mod_eq_of_lt hNGU,
      show (init_twentry_ s timer_id timeout periodic ctxt cb sl).slice = sl
        from rfl]
    have hin : ((((sl + (U32 - s.curr_slice % U32)) % U32) + s.nslices) %
        U32) % s.nslices < s.nslices := Nat.mod_lt _ hN0
    have h1 : (init_twentry_ s timer_id timeout periodic ctxt cb sl).nspins *
        (s.nslices * s.slice_intvl) ≤
        65535 * (s.nslices * s.slice_intvl) :=
      Nat.mul_le_mul_right _ (by omega)
    have h2 : ((((sl + (U32 - s.curr_slice % U32)) % U32) + s.nslices) %
        U32) % s.nslices * s.slice_intvl < s.nslices * s.slice_intvl :=
      Nat.mul_lt_mul_of_lt_of_le hin (Nat.le_refl _) hg
    have hsum : 65535 * (s.nslices * s.slice_intvl) +
        s.nslices * s.slice_intvl = 65536 * (s.nslices * s.slice_intvl) := by
      ring
    have hA : (init_twentry_ s timer_id timeout periodic ctxt cb sl).nspins *
        (s.nslices * s.slice_intvl) < U64 := by omega
    have hC : ((((sl + (U32 - s.curr_slice % U32)) % U32) + s.nslices) %
        U32) % s.nslices * s.slice_intvl < U64 := by omega
    rw [Nat.mod_eq_of_lt hA, Nat.mod_eq_of_lt hC, Nat.mod_eq_of_lt (by omega)]
    omega

/-- Witness for claim C9: a 4-slice, 100 ms wheel with a timeout of
exactly `2^16` rotations stores `nspins_ = 0` and reports 200 ms
remaining instead of 26 214 400 ms. -/
theorem init_twentry_nspins_wraps_witness :
    (init_twentry_ twEmpty 1 26214400 false none none 2).nspins =
      (26214400 / (twEmpty.nslices * twEmpty.slice_intvl)) % 65536 ∧
    (init_twentry_ twEmpty 1 26214400 false none none 2).nspins <
      26214400 / (twEmpty.nslices * twEmpty.slice_intvl) ∧
    remaining_of twEmpty.nslices twEmpty.slice_intvl twEmpty.curr_slice
      (init_twentry_ twEmpty 1 26214400 false none none 2) < 26214400 :=
  init_twentry_nspins_wraps twEmpty 1 26214400 false none none 2 (by decide)
    (by decide) (by decide) (by decide)

/-! ### Claim C5 -/

theorem tickCharges_cons_tick (m : Nat) (l : List PeriodicEvent) :
    tickCharges (PeriodicEvent.tick m :: l) = m :: tickCharges l := by
  simp [tickCharges]

theorem tickCharges_cons_hb (l : List PeriodicEvent) :
    tickCharges (PeriodicEvent.heartbeat :: l) = tickCharges l := by
  simp [tickCharges]

theorem heartbeatCount_cons_tick (m : Nat) (l : List PeriodicEvent) :
    heartbeatCount (PeriodicEvent.tick m :: l) = heartbeatCount l := by
  simp [heartbeatCount]

theorem heartbeatCount_cons_hb (l : List PeriodicEvent) :
    heartbeatCount (PeriodicEvent.heartbeat :: l) = heartbeatCount l + 1 := by
  simp [heartbeatCount]

theorem periodic_drive_unfold (missed : Nat) (h : missed ≠ 0) :
    periodic_drive missed =
      PeriodicEvent.tick
          (min missed BATCH_SLICE_SIZE * TWHEEL_DEFAULT_SLICE_DURATION) ::
        PeriodicEvent.heartbeat ::
          periodic_drive (missed - min missed BATCH_SLICE_SIZE) := by
  rw [periodic_drive.eq_def, dif_neg h]

theorem periodic_drive_counts (missed : Nat) :
    (tickCharges (periodic_drive missed)).length = (missed + 9) / 10 ∧
    heartbeatCount (periodic_drive missed) = (missed + 9) / 10 := by
  induction missed using Nat.strong_induction_on with
  | _ missed ih =>
    by_cases h : missed = 0
    · subst h
      constructor <;> simp [periodic_drive, tickCharges, heartbeatCount]
    · rw [periodic_drive_unfold missed h, tickCharges_cons_tick,
        tickCharges_cons_hb, heartbeatCount_cons_tick,
        heartbeatCount_cons_hb, List.length_cons]
      have hlt : missed - min missed BATCH_SLICE_SIZE < missed := by
        simp only [BATCH_SLICE_SIZE]
        omega
      obtain ⟨ih1, ih2⟩ := ih _ hlt
      rw [ih1, ih2]
      simp only [BATCH_SLICE_SIZE]
      omega

/-- Claim C5: one timer-fd read reporting `missed` elapsed periods makes
the periodic loop issue exactly `ceil(missed / 10)` calls to `tick`, each
charged `min(remaining, BATCH_SLICE_SIZE) * g` milliseconds and followed
by one heartbeat; in particular `missed = 25` produces exactly the three
tick calls charged for 10, 10 and 5 slices, each followed by a
heartbeat. -/
theorem periodic_drive_batches (missed : Nat) :
    (tickCharges (periodic_drive missed)).length = (missed + 9) / 10 ∧
    heartbeatCount (periodic_drive missed) =
      (tickCharges (periodic_drive missed)).length ∧
    (missed ≠ 0 → periodic_drive missed =
      PeriodicEvent.tick
          (min missed BATCH_SLICE_SIZE * TWHEEL_DEFAULT_SLICE_DURATION) ::
        PeriodicEvent.heartbeat ::
          periodic_drive (missed - min missed BATCH_SLICE_SIZE)) ∧
    periodic_drive 25 =
      [PeriodicEvent.tick (10 * TWHEEL_DEFAULT_SLICE_DURATION),
       PeriodicEvent.heartbeat,
       PeriodicEvent.tick (10 * TWHEEL_DEFAULT_SLICE_DURATION),
       PeriodicEvent.heartbeat,
       PeriodicEvent.tick (5 * TWHEEL_DEFAULT_SLICE_DURATION),
       PeriodicEvent.heartbeat] := by
  obtain ⟨h1, h2⟩ := periodic_drive_counts missed
  refine ⟨h1, by rw [h1, h2], periodic_drive_unfold missed, ?_⟩
  simp [periodic_drive, BATCH_SLICE_SIZE, TWHEEL_DEFAULT_SLICE_DURATION]

/-- Witness for claim C5 at `missed = 25`: three batches and three
heartbeats. -/
theorem periodic_drive_batches_witness :
    (tickCharges (periodic_drive 25)).length = (25 + 9) / 10 ∧
    heartbeatCount (periodic_drive 25) =
      (tickCharges (periodic_drive 25)).length ∧
    ((25 : Nat) ≠ 0 → periodic_drive 25 =
      PeriodicEvent.tick
          (min 25 BATCH_SLICE_SIZE * TWHEEL_DEFAULT_SLICE_DURATION) ::
        PeriodicEvent.heartbeat ::
          periodic_drive (25 - min 25 BATCH_SLICE_SIZE)) ∧
    periodic_drive 25 =
      [PeriodicEvent.tick (10 * TWHEEL_DEFAULT_SLICE_DURATION),
       PeriodicEvent.heartbeat,
       PeriodicEvent.tick (10 * TWHEEL_DEFAULT_SLICE_DURATION),
       PeriodicEvent.heartbeat,
       PeriodicEvent.tick (5 * TWHEEL_DEFAULT_SLICE_DURATION),
       PeriodicEvent.heartbeat] :=
  periodic_drive_batches 25

/-! ### Claim C6 -/

/-- Claim C6 (amended): in grow-on-demand mode, `slab::free` releases the
block of the freed element back to the underlying allocator precisely when
the free drops the in-use count of that block to zero and the block has a
successor in the block list (`block->next_` non-NULL), i.e. it is not the
last block; in particular an emptied last block is kept even when other
blocks exist. -/
theorem slab_free_release_iff (s : SlabState) (i : Nat) (b : SlabBlock)
    (hb : s.blocks.get? i = some b) (hpos : 0 < b.num_in_use)
    (hg : s.grow_on_demand = true) :
    (slab_free s i).blocks.length = s.blocks.length - 1 ↔
      (b.num_in_use = 1 ∧ i + 1 < s.blocks.length) := by
  have hlen : i < s.blocks.length := by
    by_contra hcon
    rw [List.get?_eq_none.2 (by omega)] at hb
    exact absurd hb (by simp)
  unfold slab_free slab_free_
  rw [hb]
  dsimp only
  by_cases hcond : (b.num_in_use - 1 == 0 && s.grow_on_demand &&
      decide (i + 1 < s.blocks.length)) = true
  · rw [if_pos hcond]
    unfold free_block_
    dsimp only
    simp only [Bool.and_eq_true, beq_iff_eq, decide_eq_true_eq] at hcond
    rw [List.length_eraseIdx]
    simp only [List.length_set]
    rw [if_pos hlen]
    constructor
    · intro _
      exact ⟨by omega, hcond.2⟩
    · intro _
      rfl
  · rw [if_neg hcond]
    dsimp only
    simp only [Bool.and_eq_true, beq_iff_eq, decide_eq_true_eq, hg,
      and_true, true_and, not_and] at hcond
    rw [List.length_set]
    constructor
    · intro habs
      omega
    · intro hrhs
      exact absurd hrhs.2 (hcond (by omega))

/-- Witness for the amended claim C6: freeing the single element of the
head block of `slabW` (which has a successor) releases that block. -/
theorem slab_free_release_iff_witness :
    (slab_free slabW 0).blocks.length = slabW.blocks.length - 1 ↔
      (SlabBlock.num_in_use { num_in_use := 1 } = 1 ∧
        0 + 1 < slabW.blocks.length) :=
  slab_free_release_iff slabW 0 { num_in_use := 1 } (by decide) (by decide)
    (by decide)

/-- Claim C6 counterexample: `slabW` grows on demand and holds two blocks
with one element each in use; freeing the element of the last block drops
that block to zero in-use while another block remains, yet the block is
not released (the block list keeps both blocks) because its `next_` is
NULL. -/
theorem slab_free_last_block_counterexample :
    slabW.grow_on_demand = true ∧
    slabW.blocks.get? 1 = some { num_in_use := 1 } ∧
    2 ≤ slabW.blocks.length ∧
    (slab_free slabW 1).blocks.length = slabW.blocks.length := by
  refine ⟨by decide, by decide, by decide, by decide⟩

/-! ### Generic association-list lemmas for the event-thread state -/

theorem mapUpd_cons {α : Type} (k1 : Nat) (v1 : α) (t : List (Nat × α))
    (k : Nat) (v : α) :
    ((k1, v1) :: t).map (fun p => if p.1 = k then (k, v) else p) =
      (if k1 = k then (k, v) else (k1, v1)) ::
        t.map (fun p => if p.1 = k then (k, v) else p) := by
  by_cases h : k1 = k <;> simp [h]

theorem lookupP_map_upd_self {α : Type} (l : List (Nat × α)) (k : Nat)
    (v : α) :
    (l.map fun p => if p.1 = k then (k, v) else p).lookup k =
      (l.lookup k).map fun _ => v := by
  induction l with
  | nil => rfl
  | cons p t ih =>
    obtain ⟨k1, v1⟩ := p
    rw [mapUpd_cons]
    by_cases h : k1 = k
    · subst h
      rw [if_pos rfl]
      simp [List.lookup]
    · rw [if_neg h]
      have hb : (k == k1) = false := by
        simp
        omega
      simp only [List.lookup, hb]
      exact ih

theorem lookupP_map_upd_ne {α : Type} (l : List (Nat × α)) (k k' : Nat)
    (v : α) (h : k' ≠ k) :
    (l.map fun p => if p.1 = k then (k, v) else p).lookup k' =
      l.lookup k' := by
  induction l with
  | nil => rfl
  | cons p t ih =>
    obtain ⟨k1, v1⟩ := p
    rw [mapUpd_cons]
    by_cases hk : k1 = k
    · have hb1 : (k' == k) = false := by simpa using h
      subst hk
      rw [if_pos rfl]
      simp only [List.lookup, hb1]
      exact ih
    · rw [if_neg hk]
      by_cases hq : k' = k1
      · subst hq
        simp [List.lookup]
      · have hb : (k' == k1) = false := by simpa using hq
        simp only [List.lookup, hb]
        exact ih

theorem lookupP_append_right {α : Type} (l₁ l₂ : List (Nat × α)) (k : Nat)
    (h : l₁.lookup k = none) : (l₁ ++ l₂).lookup k = l₂.lookup k := by
  induction l₁ with
  | nil => simp
  | cons p t ih =>
    obtain ⟨k1, v1⟩ := p
    by_cases hk : k = k1
    · subst hk
      simp [List.lookup] at h
    · have hb : (k == k1) = false := by simpa using hk
      simp only [List.lookup, hb] at h
      simp only [List.cons_append, List.lookup, hb]
      exact ih h

theorem lookupP_append_single_ne {α : Type} (l : List (Nat × α))
    (k k' : Nat) (v : α) (h : k' ≠ k) :
    (l ++ [(k, v)]).lookup k' = l.lookup k' := by
  induction l with
  | nil =>
    have hb : (k' == k) = false := by simpa using h
    simp [List.lookup, hb]
  | cons p t ih =>
    obtain ⟨k1, v1⟩ := p
    by_cases hq : k' = k1
    · subst hq
      simp [List.lookup]
    · have hb1 : (k' == k1) = false := by simpa using hq
      simp only [List.cons_append, List.lookup, hb1]
      exact ih

theorem lookup_setAssoc_self {α : Type} (l : List (Nat × α)) (k : Nat)
    (v : α) : (setAssoc l k v).lookup k = some v := by
  unfold setAssoc
  split
  · rename_i hs
    rw [lookupP_map_upd_self]
    rcases hopt : l.lookup k with _ | w
    · rw [hopt] at hs
      simp at hs
    · simp
  · rename_i hs
    have hnone : l.lookup k = none := by
      rcases hopt : l.lookup k with _ | w
      · rfl
      · rw [hopt] at hs
        simp at hs
    rw [lookupP_append_right _ _ _ hnone]
    simp [List.lookup]

theorem lookup_setAssoc_ne {α : Type} (l : List (Nat × α)) (k k' : Nat)
    (v : α) (h : k' ≠ k) : (setAssoc l k v).lookup k' = l.lookup k' := by
  unfold setAssoc
  split
  · exact lookupP_map_upd_ne l k k' v h
  · exact lookupP_append_single_ne l k k' v h

theorem mem_insertUniq (l : List Nat) (x : Nat) : x ∈ insertUniq l x := by
  unfold insertUniq
  split
  · assumption
  · simp

/-! ### Claim C7 -/

theorem mem_subsOf_recordSub (s : EvState) (S T : Nat) :
    S ∈ subsOf (recordSub s S T) T := by
  unfold recordSub subsOf
  dsimp only
  rw [lookup_setAssoc_self]
  exact mem_insertUniq _ S

/-- Claim C7: when the target thread `T` is already marked UP,
`updown_mgr::subscribe(S, T)` enqueues exactly one UP notification for `T`
into the inbox of the registered subscriber `S` (the UPDOWN_MSG count for
`T` grows by one) and records the subscription; moreover every successful
`subscribe(S, T)`, whatever the current status of `T`, records the
subscription.  A subscriber that subscribes after `up(T)` therefore still
receives exactly one UP notification. -/
theorem updown_subscribe_after_up (s : EvState) (S T : Nat) (hne : S ≠ T)
    (hS : S ≤ MAX_THREAD_ID) (hT : T ≤ MAX_THREAD_ID)
    (hreg : (s.inboxes.lookup S).isSome = true)
    (hup : statusOf s T = true) :
    (∃ s2, updown_subscribe s S T = some s2 ∧
      (inboxOf s2 S).count (LfqMsg.updown T) =
        (inboxOf s S).count (LfqMsg.updown T) + 1 ∧
      S ∈ subsOf s2 T) ∧
    (∀ s3 s4, updown_subscribe s3 S T = some s4 → S ∈ subsOf s4 T) := by
  constructor
  · refine ⟨recordSub (handle_thread_up s S T) S T, ?_, ?_, ?_⟩
    · unfold updown_subscribe
      rw [if_neg hne, if_neg (by omega), if_neg (by omega), if_pos hup,
        if_pos hreg]
    · have hinb : inboxOf (recordSub (handle_thread_up s S T) S T) S =
          inboxOf s S ++ [LfqMsg.updown T] := by
        unfold recordSub handle_thread_up ev_message_send inboxOf
        dsimp only
        rw [lookup_setAssoc_self]
        rfl
      rw [hinb, List.count_append]
      simp
    · exact mem_subsOf_recordSub _ S T
  · intro s3 s4 hsub
    unfold updown_subscribe at hsub
    split_ifs at hsub
    · simp only [Option.some.injEq] at hsub
      subst hsub
      exact mem_subsOf_recordSub _ S T
    · simp only [Option.some.injEq] at hsub
      subst hsub
      exact mem_subsOf_recordSub _ S T

/-- Witness for claim C7 on the registry `evW` where thread 3 is UP and
thread 2 is a registered event thread with an empty inbox. -/
theorem updown_subscribe_after_up_witness :
    (∃ s2, updown_subscribe evW 2 3 = some s2 ∧
      (inboxOf s2 2).count (LfqMsg.updown 3) =
        (inboxOf evW 2).count (LfqMsg.updown 3) + 1 ∧
      2 ∈ subsOf s2 3) ∧
    (∀ s3 s4, updown_subscribe s3 2 3 = some s4 → 2 ∈ subsOf s4 3) :=
  updown_subscribe_after_up evW 2 3 (by decide) (by decide) (by decide)
    (by decide) (by decide)

/-! ### Claim C10 -/

/-- Claim C10: the free function `message_send(thread_id, message)` guards
its preconditions only by assertions: it aborts (modelled by `none`)
exactly when `thread_id` exceeds 255 or no event thread is registered
under that id; when both assertions pass, and only then, the USER_MSG
envelope is appended to the inbox of the target thread and its async
watcher is woken. -/
theorem message_send_assert_spec (s : EvState) (tid payload : Nat) :
    (message_send_global s tid payload = none ↔
      (MAX_THREAD_ID < tid ∨ s.inboxes.lookup tid = none)) ∧
    (∀ s2, message_send_global s tid payload = some s2 →
      inboxOf s2 tid = inboxOf s tid ++ [LfqMsg.user payload] ∧
      s2.wakeups = s.wakeups ++ [tid]) := by
  constructor
  · unfold message_send_global
    split_ifs with h1 h2
    · simp only [true_iff]
      exact Or.inl h1
    · simp only [true_iff]
      right
      rcases hopt : s.inboxes.lookup tid with _ | v
      · rfl
      · rw [hopt] at h2
        simp at h2
    · simp only [false_iff]
      push_neg
      refine ⟨by omega, ?_⟩
      intro habs
      rw [habs] at h2
      simp at h2
  · intro s2 hs2
    unfold message_send_global at hs2
    split_ifs at hs2
    simp only [Option.some.injEq] at hs2
    subst hs2
    constructor
    · unfold ev_message_send inboxOf
      dsimp only
      rw [lookup_setAssoc_self]
      rfl
    · rfl

/-- Witness for claim C10: sending to registered thread 3 of `evW`
succeeds and enqueues; the abort cases are characterised by the same
theorem. -/
theorem message_send_assert_spec_witness :
    (message_send_global evW 3 42 = none ↔
      (MAX_THREAD_ID < 3 ∨ evW.inboxes.lookup 3 = none)) ∧
    (∀ s2, message_send_global evW 3 42 = some s2 →
      inboxOf s2 3 = inboxOf evW 3 ++ [LfqMsg.user 42] ∧
      s2.wakeups = evW.wakeups ++ [3]) :=
  message_send_assert_spec evW 3 42
